import Mathlib

/-!
Shallow embedding of the VWAP sliding-window aggregation engine of
`vwap-calculator/main.go` (the exact-rational implementation; `big.Rat`
values are embedded as `ℚ`, which is exact), together with the ingestion
retry loop of `main` and the dispatch path of `processMessage`.

Conventions of the embedding:
* The fixed-size Go array `[windowSize * 2]big.Rat` is embedded as a total
  function `Fin bufLen → ℚ`.  Go indexing panics out of bounds; the helpers
  `getAt`/`setAt` below are total (out-of-bounds reads default, writes are
  dropped), and the bounds-safety claim is proved separately: on all
  well-formed states every index the code computes is in bounds, so the
  total semantics agrees with Go's panicking semantics on reachable states.
* Methods that mutate their receiver are embedded by explicit state
  passing: a Go method `func (v *T) M(a) r` becomes `T.M : T → a → T × r`.
* `Update`'s `big.Rat.SetString` parsing layer is an I/O boundary: the
  numeric core `VWAPCalculator.update` operates on the parsed rationals,
  and a string argument is represented by its parse result
  (`Option ℚ`, `none` when `SetString` fails) in `updateStr`.
* `Calculate`'s final `FloatString(4)` is display formatting of the
  computed rational; claims about the computed value are stated on the
  rational it formats.
-/

namespace VWAP

/-- `windowSize = 200` (main.go line 22). -/
def windowSize : ℕ := 200

/-- `maxRetries = 5` (main.go line 25). -/
def maxRetries : ℕ := 5

/-- Length of the backing array: `windowSize * 2` (main.go line 36,
`len(rb.data) = 400`). -/
def bufLen : ℕ := windowSize * 2

/-- Read `f[i]` for a natural index, `0` when out of bounds (Go would
panic there; bounds safety is proved separately). -/
def getAt (f : Fin bufLen → ℚ) (i : ℕ) : ℚ :=
  if h : i < bufLen then f ⟨i, h⟩ else 0

/-- Write `f[i] := x` for a natural index, dropped when out of bounds. -/
def setAt (f : Fin bufLen → ℚ) (i : ℕ) (x : ℚ) : Fin bufLen → ℚ :=
  if h : i < bufLen then Function.update f ⟨i, h⟩ x else f

/-- `RingBuffer` (main.go lines 35-39): backing array of `2 * windowSize`
rationals, `start` index of the oldest slot, `count` stored pairs. -/
structure RingBuffer where
  data : Fin bufLen → ℚ
  start : ℕ
  count : ℕ

/-- Result of `RingBuffer.Add`: the new buffer state plus the Go return
values `(oldPrice, oldSize, removed)`.  When `removed = false` Go returns
nil pointers; they are embedded as `0` and are never read on that path. -/
structure AddResult where
  rb : RingBuffer
  oldPrice : ℚ
  oldSize : ℚ
  removed : Bool

/-- `RingBuffer.Add` (main.go lines 41-54), line by line: when full, read
the oldest pair at `start`/`start+1` and advance `start` by two modulo the
array length; otherwise grow `count`; then write the new pair at
`pos = (start + (count-1)*2) % len(data)` and `pos+1`. -/
def RingBuffer.add (rb : RingBuffer) (price size : ℚ) : AddResult :=
  if rb.count = windowSize then
    let oldPrice := getAt rb.data rb.start
    let oldSize := getAt rb.data (rb.start + 1)
    let start := (rb.start + 2) % bufLen
    let pos := (start + (rb.count - 1) * 2) % bufLen
    let data := setAt (setAt rb.data pos price) (pos + 1) size
    ⟨⟨data, start, rb.count⟩, oldPrice, oldSize, true⟩
  else
    let count := rb.count + 1
    let pos := (rb.start + (count - 1) * 2) % bufLen
    let data := setAt (setAt rb.data pos price) (pos + 1) size
    ⟨⟨data, rb.start, count⟩, 0, 0, false⟩

/-- The fresh ring buffer: Go's zero value (all `big.Rat` in the array are
zero, `start = count = 0`). -/
def RingBuffer.empty : RingBuffer := ⟨fun _ => 0, 0, 0⟩

/-- Shape invariant of a ring-buffer state: at most `windowSize` stored
pairs and an even in-range `start`.  Holds for the zero value and is
preserved by `add`. -/
def RingBuffer.Wf (rb : RingBuffer) : Prop :=
  rb.count ≤ windowSize ∧ rb.start % 2 = 0 ∧ rb.start < bufLen

instance (rb : RingBuffer) : Decidable rb.Wf := by
  unfold RingBuffer.Wf; infer_instance

/-- The `i`-th retained (price, size) pair in arrival order (oldest first):
prices live at even offsets `(start + 2i) % len(data)`, the paired size one
slot above, exactly as `add` lays them out. -/
def RingBuffer.slot (rb : RingBuffer) (i : ℕ) : ℚ × ℚ :=
  (getAt rb.data ((rb.start + 2 * i) % bufLen),
   getAt rb.data ((rb.start + 2 * i) % bufLen + 1))

/-- The retained pairs in arrival order, oldest first. -/
def RingBuffer.contents (rb : RingBuffer) : List (ℚ × ℚ) :=
  (List.range rb.count).map rb.slot

/-- `VWAPCalculator` (main.go lines 56-61): a ring buffer plus the running
sums.  The mutex only serializes access and has no sequential content. -/
structure VWAPCalculator where
  buffer : RingBuffer
  totalPV : ℚ
  totalVolume : ℚ

/-- `NewVWAPCalculator` (main.go lines 63-65): the zero value. -/
def NewVWAPCalculator : VWAPCalculator := ⟨RingBuffer.empty, 0, 0⟩

/-- Numeric core of `VWAPCalculator.Update` (main.go lines 67-86) after
`SetString` parsing: reject a nonpositive price or size leaving the state
untouched; otherwise add to the buffer, subtract an evicted pair from the
running sums, and add the new contribution.  The boolean is `true` iff the
update was accepted (`nil` error in Go). -/
def VWAPCalculator.update (v : VWAPCalculator) (price size : ℚ) :
    VWAPCalculator × Bool :=
  if price ≤ 0 ∨ size ≤ 0 then (v, false)
  else
    let r := v.buffer.add price size
    let pv := if r.removed then v.totalPV - r.oldPrice * r.oldSize else v.totalPV
    let vol := if r.removed then v.totalVolume - r.oldSize else v.totalVolume
    (⟨r.rb, pv + price * size, vol + size⟩, true)

/-- `VWAPCalculator.Update`'s full entry (main.go lines 67-73): each string
argument is represented by its `big.Rat.SetString` parse result; a failed
parse (`!ok1 || !ok2`) is rejected exactly like a nonpositive value, with
the state untouched. -/
def VWAPCalculator.updateStr (v : VWAPCalculator) (priceStr sizeStr : Option ℚ) :
    VWAPCalculator × Bool :=
  match priceStr, sizeStr with
  | some p, some s => v.update p s
  | _, _ => (v, false)

/-- `VWAPCalculator.Calculate` (main.go lines 88-97) with explicit state
passing: returns the (unchanged) receiver and the computed rational, `0`
when `totalVolume = 0`, else `totalPV / totalVolume` (which
`FloatString(4)` then formats for display). -/
def VWAPCalculator.calculate (v : VWAPCalculator) : VWAPCalculator × ℚ :=
  (v, if v.totalVolume = 0 then 0 else v.totalPV / v.totalVolume)

/-- The value computed by `Calculate`. -/
def VWAPCalculator.calcValue (v : VWAPCalculator) : ℚ :=
  (v.calculate).2

/-- Σ(price·size) over a pair list. -/
def sumPV (l : List (ℚ × ℚ)) : ℚ := (l.map fun t => t.1 * t.2).sum

/-- Σ(size) over a pair list. -/
def sumVol (l : List (ℚ × ℚ)) : ℚ := (l.map Prod.snd).sum

/-- Consistency invariant of the aggregator: well-formed buffer and running
sums recomputable from the retained pairs. -/
def VWAPCalculator.Inv (v : VWAPCalculator) : Prop :=
  v.buffer.Wf ∧ v.totalPV = sumPV v.buffer.contents ∧
    v.totalVolume = sumVol v.buffer.contents

/-- An observable operation on one aggregator. -/
inductive Op where
  | update (price size : ℚ)
  | calculate

/-- Apply one operation to the aggregator state (`Calculate` returns its
receiver unchanged). -/
def applyOp (v : VWAPCalculator) : Op → VWAPCalculator
  | .update p s => (v.update p s).1
  | .calculate => (v.calculate).1

/-- The state after a call sequence starting from `NewVWAPCalculator`. -/
def run (ops : List Op) : VWAPCalculator :=
  ops.foldl applyOp NewVWAPCalculator

/-- The aggregator state after a sequence of (already parsed) updates from
the fresh calculator, errors ignored as in the Go caller. -/
def runUpdates (us : List (ℚ × ℚ)) : VWAPCalculator :=
  us.foldl (fun v u => (v.update u.1 u.2).1) NewVWAPCalculator

/-- The buffer state after a sequence of `Add` calls on the zero buffer. -/
def runAdds (ps : List (ℚ × ℚ)) : RingBuffer :=
  ps.foldl (fun rb u => (rb.add u.1 u.2).rb) RingBuffer.empty

/-- The most recent `min(k, windowSize)` of a `k`-element update sequence,
oldest first. -/
def lastWindow (us : List (ℚ × ℚ)) : List (ℚ × ℚ) :=
  us.drop (us.length - windowSize)

/-- Every update in the sequence has positive price and size. -/
def validPairs (us : List (ℚ × ℚ)) : Prop := ∀ u ∈ us, 0 < u.1 ∧ 0 < u.2

/-- Specification-level window insert: append, evicting the oldest pair
when the window already holds `windowSize` pairs. -/
def windowAdd (l : List (ℚ × ℚ)) (p s : ℚ) : List (ℚ × ℚ) :=
  if l.length = windowSize then l.tail ++ [(p, s)] else l ++ [(p, s)]

/-!
### Ingestion loop (main.go lines 123-150)

One iteration of `main`'s `for` loop makes one `connectWebSocket` attempt.
An attempt outcome is `none` for a failed connect, or `some f` for a
successful connect whose `handleConnection` run transforms the aggregator
state by `f` before the connection eventually drops and the loop retries.
`ingestLoop rc st outcomes` returns the number of connect attempts issued,
whether the loop hit the terminal `retryCount > maxRetries` return, and
the final aggregator state.  An exhausted outcome list means the loop is
still running (not terminated).
-/
def ingestLoop {σ : Type} : ℕ → σ → List (Option (σ → σ)) → ℕ × Bool × σ
  | _, st, [] => (0, false, st)
  | rc, st, none :: rest =>
    if rc + 1 > maxRetries then (1, true, st)
    else
      let r := ingestLoop (rc + 1) st rest
      (r.1 + 1, r.2.1, r.2.2)
  | _, st, some f :: rest =>
    let r := ingestLoop 0 (f st) rest
    (r.1 + 1, r.2.1, r.2.2)

/-- An outcome trace built from blocks: each block is `k ≤ maxRetries`
consecutive connect failures followed by one successful connect handled by
`f`. -/
def blockTrace {σ : Type} : List (ℕ × (σ → σ)) → List (Option (σ → σ))
  | [] => []
  | (k, f) :: rest => List.replicate k none ++ some f :: blockTrace rest

/-!
### Dispatch (main.go lines 28-33, 196-222)

A well-formed inbound frame of shape `{type, product_id, price, size}`.
The `price`/`size` JSON values in scope are either JSON strings or JSON
numbers; a JSON string is represented by its `big.Rat.SetString` parse
result (`none` when unparseable), a JSON number by its numeric value.
-/
inductive JsonVal where
  | jstr (parse : Option ℚ)
  | jnum (n : ℚ)

/-- An inbound frame `{type, product_id, price, size}`. -/
structure Frame where
  type : String
  product_id : String
  price : JsonVal
  size : JsonVal

/-- A decoded `Trade` record (main.go lines 28-33): `Price` and `Size` are
declared `string` in Go, represented here by their parse results. -/
structure Trade where
  type : String
  productID : String
  price : Option ℚ
  size : Option ℚ

/-- `encoding/json` unmarshalling of one frame field into a Go field of
declared type `string`: succeeds only when the JSON value is a string; a
JSON number produces a decode error (`cannot unmarshal number into field
of type string`). -/
def unmarshalStringField : JsonVal → Option (Option ℚ)
  | .jstr p => some p
  | .jnum _ => none

/-- `json.Unmarshal` of a frame into `Trade` (main.go line 198): fails iff
either numeric field is a JSON number rather than a JSON string. -/
def decodeTrade (f : Frame) : Option Trade :=
  match unmarshalStringField f.price, unmarshalStringField f.size with
  | some p, some s => some ⟨f.type, f.product_id, p, s⟩
  | _, _ => none

/-- Outcome of `processMessage` for one frame. -/
inductive MsgResult where
  | decodeError
  | ignored
  | unknownProduct
  | updateError
  | applied (vwap : ℚ)

/-- The registry: Go's `map[string]Calculator`, association list keyed by
product id. -/
def Registry := List (String × VWAPCalculator)

/-- Map lookup `calculators[productID]`. -/
def Registry.find : Registry → String → Option VWAPCalculator
  | [], _ => none
  | (k, v) :: rest, key => if k = key then some v else Registry.find rest key

/-- In-place mutation of the calculator a map entry points to. -/
def Registry.store : Registry → String → VWAPCalculator → Registry
  | [], _, _ => []
  | (k, v) :: rest, key, c =>
    if k = key then (key, c) :: rest else (k, v) :: Registry.store rest key c

/-- `processMessage` (main.go lines 196-222): decode the frame, drop
non-`match` types, look the product up in the registry, `Update`, and on
success report `Calculate`'s value.  Returns the registry after the call
(Go mutates the pointed-to calculator in place) and the outcome. -/
def processMessage (frame : Frame) (calculators : Registry) :
    Registry × MsgResult :=
  match decodeTrade frame with
  | none => (calculators, .decodeError)
  | some trade =>
    if trade.type ≠ "match" then (calculators, .ignored)
    else
      match calculators.find trade.productID with
      | none => (calculators, .unknownProduct)
      | some c =>
        match c.updateStr trade.price trade.size with
        | (_, false) => (calculators, .updateError)
        | (c2, true) =>
          (calculators.store trade.productID c2, .applied c2.calcValue)

/-- The registry `main` builds (main.go lines 125-129). -/
def mainCalculators : Registry :=
  [("BTC-USD", NewVWAPCalculator), ("ETH-USD", NewVWAPCalculator),
   ("ETH-BTC", NewVWAPCalculator)]

/-!
### Array-access lemmas
-/

theorem getAt_setAt_same (f : Fin bufLen → ℚ) (i : ℕ) (x : ℚ) (h : i < bufLen) :
    getAt (setAt f i x) i = x := by
  unfold getAt setAt
  rw [dif_pos h, dif_pos h, Function.update_same]

theorem getAt_setAt_ne (f : Fin bufLen → ℚ) {i j : ℕ} (x : ℚ) (h : i ≠ j) :
    getAt (setAt f i x) j = getAt f j := by
  unfold getAt setAt
  by_cases hj : j < bufLen
  · by_cases hi : i < bufLen
    · rw [dif_pos hj, dif_pos hi, dif_pos hj]
      have hne : (⟨j, hj⟩ : Fin bufLen) ≠ ⟨i, hi⟩ := by
        intro hh
        exact h (by simpa using hh.symm)
      exact Function.update_noteq hne x f
    · rw [dif_pos hj, dif_neg hi, dif_pos hj]
  · rw [dif_neg hj, dif_neg hj]

/-- Reading a pair at `q`, `q+1` is unaffected by the write of `(p, s)` at
`pos`, `pos+1` when the four indices are pairwise distinct. -/
theorem getAt_write_other (data : Fin bufLen → ℚ) (pos q : ℕ) (p s : ℚ)
    (h0 : q ≠ pos) (h1 : q ≠ pos + 1) (h2 : q + 1 ≠ pos) (h3 : q + 1 ≠ pos + 1) :
    getAt (setAt (setAt data pos p) (pos + 1) s) q = getAt data q ∧
    getAt (setAt (setAt data pos p) (pos + 1) s) (q + 1) = getAt data (q + 1) := by
  constructor
  · rw [getAt_setAt_ne _ _ fun hh => h1 hh.symm, getAt_setAt_ne _ _ fun hh => h0 hh.symm]
  · rw [getAt_setAt_ne _ _ fun hh => h3 hh.symm, getAt_setAt_ne _ _ fun hh => h2 hh.symm]

/-- Reading back the pair just written at `pos`, `pos+1`. -/
theorem getAt_write_self (data : Fin bufLen → ℚ) (pos : ℕ) (p s : ℚ)
    (h : pos + 1 < bufLen) :
    getAt (setAt (setAt data pos p) (pos + 1) s) pos = p ∧
    getAt (setAt (setAt data pos p) (pos + 1) s) (pos + 1) = s := by
  constructor
  · rw [getAt_setAt_ne _ _ (by omega), getAt_setAt_same _ _ _ (by omega)]
  · rw [getAt_setAt_same _ _ _ h]

/-!
### Index arithmetic

Slots live at even offsets `(start + 2*i) % bufLen`; with `start` even and
in range and `i < windowSize` these offsets are distinct even numbers, so
a write at one slot pair never aliases another slot pair.
-/

theorem slotIdx_lt (st i : ℕ) : (st + 2 * i) % bufLen < bufLen := by
  simp only [bufLen, windowSize]; omega

theorem slotIdx_even (st i : ℕ) (hst : st % 2 = 0) :
    (st + 2 * i) % bufLen % 2 = 0 := by
  simp only [bufLen, windowSize]; omega

theorem slotIdx_inj (st i j : ℕ)
    (hi : i < windowSize) (hj : j < windowSize) (hne : i ≠ j) :
    (st + 2 * i) % bufLen ≠ (st + 2 * j) % bufLen := by
  simp only [bufLen, windowSize] at *; omega

theorem bufLen_val : bufLen = 400 := rfl

theorem windowSize_val : windowSize = 200 := rfl

/-!
### Refinement: `RingBuffer.add` implements `windowAdd` on `contents`
-/

/-- `add` on a non-full well-formed buffer appends the new pair, evicts
nothing, and preserves well-formedness. -/
theorem add_not_full (rb : RingBuffer) (p s : ℚ) (hwf : rb.Wf)
    (hlt : rb.count < windowSize) :
    (rb.add p s).rb.contents = rb.contents ++ [(p, s)] ∧
    (rb.add p s).removed = false ∧ (rb.add p s).rb.Wf := by
  obtain ⟨hcount, heven, hstart⟩ := hwf
  have hne : rb.count ≠ windowSize := Nat.ne_of_lt hlt
  have harith : (rb.count + 1 - 1) * 2 = 2 * rb.count := by omega
  have hpe : (rb.start + 2 * rb.count) % bufLen % 2 = 0 := slotIdx_even _ _ heven
  have hplt : (rb.start + 2 * rb.count) % bufLen < bufLen := slotIdx_lt _ _
  have hp1 : (rb.start + 2 * rb.count) % bufLen + 1 < bufLen := by
    rw [bufLen_val] at hplt ⊢; omega
  have hadd : rb.add p s =
      ⟨⟨setAt (setAt rb.data ((rb.start + 2 * rb.count) % bufLen) p)
          ((rb.start + 2 * rb.count) % bufLen + 1) s, rb.start, rb.count + 1⟩,
        0, 0, false⟩ := by
    simp only [RingBuffer.add, if_neg hne, harith]
  refine ⟨?_, by rw [hadd], ?_⟩
  · rw [hadd]
    simp only [RingBuffer.contents]
    rw [List.range_succ, List.map_append, List.map_singleton]
    congr 1
    · apply List.map_congr_left
      intro i hi
      rw [List.mem_range] at hi
      have hqe : (rb.start + 2 * i) % bufLen % 2 = 0 := slotIdx_even _ _ heven
      have hqne : (rb.start + 2 * i) % bufLen ≠ (rb.start + 2 * rb.count) % bufLen :=
        slotIdx_inj _ _ _ (by omega) hlt (by omega)
      have h1 : (rb.start + 2 * i) % bufLen ≠ (rb.start + 2 * rb.count) % bufLen + 1 := by
        omega
      have h2 : (rb.start + 2 * i) % bufLen + 1 ≠ (rb.start + 2 * rb.count) % bufLen := by
        omega
      have h3 : (rb.start + 2 * i) % bufLen + 1 ≠ (rb.start + 2 * rb.count) % bufLen + 1 := by
        omega
      have hrw := getAt_write_other rb.data ((rb.start + 2 * rb.count) % bufLen)
        ((rb.start + 2 * i) % bufLen) p s hqne h1 h2 h3
      simp only [RingBuffer.slot]
      rw [hrw.1, hrw.2]
    · simp only [RingBuffer.slot]
      have hrw := getAt_write_self rb.data ((rb.start + 2 * rb.count) % bufLen) p s hp1
      rw [hrw.1, hrw.2]
  · rw [hadd]
    refine ⟨?_, heven, hstart⟩
    show rb.count + 1 ≤ windowSize
    omega

theorem map_range_snoc {α : Type} (f : ℕ → α) (n : ℕ) :
    (List.range (n + 1)).map f = (List.range n).map f ++ [f n] := by
  rw [List.range_succ, List.map_append, List.map_singleton]

theorem map_range_tail {α : Type} (f : ℕ → α) (n : ℕ) :
    ((List.range (n + 1)).map f).tail = (List.range n).map fun i => f (i + 1) := by
  rw [List.range_succ_eq_map, List.map_cons, List.tail_cons, List.map_map]
  rfl

/-- `add` on a full well-formed buffer overwrites (and returns) the oldest
pair, appends the new one at its position, and preserves well-formedness. -/
theorem add_full (rb : RingBuffer) (p s : ℚ) (hwf : rb.Wf)
    (hc : rb.count = windowSize) :
    (rb.add p s).rb.contents = rb.contents.tail ++ [(p, s)] ∧
    (rb.add p s).removed = true ∧
    (rb.add p s).oldPrice = (rb.slot 0).1 ∧
    (rb.add p s).oldSize = (rb.slot 0).2 ∧
    (rb.add p s).rb.Wf ∧ (rb.add p s).rb.count = windowSize := by
  obtain ⟨hcount, heven, hstart⟩ := hwf
  have hst1 : rb.start + 1 < bufLen := by rw [bufLen_val] at hstart ⊢; omega
  have hpos1 : ((rb.start + 2) % bufLen + (windowSize - 1) * 2) % bufLen = rb.start := by
    rw [bufLen_val] at hstart ⊢; rw [windowSize_val]; omega
  have h0 : (rb.start + 2 * 0) % bufLen = rb.start := by
    rw [bufLen_val] at hstart ⊢; omega
  have hidx : ∀ i : ℕ, ((rb.start + 2) % bufLen + 2 * i) % bufLen =
      (rb.start + 2 * (i + 1)) % bufLen := by
    intro i
    rw [bufLen_val]; omega
  have hadd : rb.add p s =
      ⟨⟨setAt (setAt rb.data rb.start p) (rb.start + 1) s,
        (rb.start + 2) % bufLen, windowSize⟩,
        getAt rb.data rb.start, getAt rb.data (rb.start + 1), true⟩ := by
    unfold RingBuffer.add
    rw [if_pos hc]
    simp only [hc, hpos1]
  have hslot0 : rb.slot 0 = (getAt rb.data rb.start, getAt rb.data (rb.start + 1)) := by
    simp only [RingBuffer.slot, h0]
  refine ⟨?_, by rw [hadd], by rw [hadd, hslot0], by rw [hadd, hslot0], ?_, by rw [hadd]⟩
  · rw [hadd]
    show (List.range windowSize).map
        (RingBuffer.slot ⟨setAt (setAt rb.data rb.start p) (rb.start + 1) s,
          (rb.start + 2) % bufLen, windowSize⟩) =
      ((List.range rb.count).map rb.slot).tail ++ [(p, s)]
    rw [hc]
    rw [show windowSize = 199 + 1 from rfl]
    rw [map_range_snoc, map_range_tail]
    congr 1
    · apply List.map_congr_left
      intro i hi
      rw [List.mem_range] at hi
      have hq : ((rb.start + 2) % bufLen + 2 * i) % bufLen =
          (rb.start + 2 * (i + 1)) % bufLen := hidx i
      have hqe : (rb.start + 2 * (i + 1)) % bufLen % 2 = 0 := slotIdx_even _ _ heven
      have hqs : (rb.start + 2 * (i + 1)) % bufLen ≠ rb.start := by
        have := slotIdx_inj rb.start (i + 1) 0
          (by rw [windowSize_val]; omega) (by rw [windowSize_val]; omega) (by omega)
        rw [h0] at this
        exact this
      have h1 : (rb.start + 2 * (i + 1)) % bufLen ≠ rb.start + 1 := by omega
      have h2 : (rb.start + 2 * (i + 1)) % bufLen + 1 ≠ rb.start := by omega
      have h3 : (rb.start + 2 * (i + 1)) % bufLen + 1 ≠ rb.start + 1 := by omega
      have hrw := getAt_write_other rb.data rb.start
        ((rb.start + 2 * (i + 1)) % bufLen) p s hqs h1 h2 h3
      simp only [RingBuffer.slot, Function.comp_apply, hq]
      rw [hrw.1, hrw.2]
    · simp only [RingBuffer.slot]
      have hq199 : ((rb.start + 2) % bufLen + 2 * 199) % bufLen = rb.start := by
        rw [bufLen_val] at hstart ⊢; omega
      rw [hq199]
      have hrw := getAt_write_self rb.data rb.start p s hst1
      rw [hrw.1, hrw.2]
  · rw [hadd]
    refine ⟨le_refl _, ?_, ?_⟩
    · show (rb.start + 2) % bufLen % 2 = 0
      rw [bufLen_val]; omega
    · show (rb.start + 2) % bufLen < bufLen
      rw [bufLen_val]; omega

/-!
### Contents and running-sum algebra
-/

theorem contents_length (rb : RingBuffer) : rb.contents.length = rb.count := by
  simp [RingBuffer.contents]

theorem contents_cons (rb : RingBuffer) (n : ℕ) (hc : rb.count = n + 1) :
    rb.contents = rb.slot 0 :: rb.contents.tail := by
  simp only [RingBuffer.contents, hc, List.range_succ_eq_map, List.map_cons, List.tail_cons]

theorem sumPV_cons (a : ℚ × ℚ) (l : List (ℚ × ℚ)) :
    sumPV (a :: l) = a.1 * a.2 + sumPV l := by
  simp [sumPV]

theorem sumVol_cons (a : ℚ × ℚ) (l : List (ℚ × ℚ)) :
    sumVol (a :: l) = a.2 + sumVol l := by
  simp [sumVol]

theorem sumPV_snoc (l : List (ℚ × ℚ)) (a : ℚ × ℚ) :
    sumPV (l ++ [a]) = sumPV l + a.1 * a.2 := by
  simp [sumPV]

theorem sumVol_snoc (l : List (ℚ × ℚ)) (a : ℚ × ℚ) :
    sumVol (l ++ [a]) = sumVol l + a.2 := by
  simp [sumVol]

theorem sumVol_nonneg (l : List (ℚ × ℚ)) (h : ∀ u ∈ l, 0 < u.1 ∧ 0 < u.2) :
    0 ≤ sumVol l := by
  induction l with
  | nil => simp [sumVol]
  | cons a l ih =>
    rw [sumVol_cons]
    have ha := h a (by simp)
    have hl : 0 ≤ sumVol l := ih fun u hu => h u (by simp [hu])
    linarith [ha.2]

theorem sumVol_pos (l : List (ℚ × ℚ)) (h : ∀ u ∈ l, 0 < u.1 ∧ 0 < u.2)
    (hne : l ≠ []) : 0 < sumVol l := by
  cases l with
  | nil => exact absurd rfl hne
  | cons a l =>
    rw [sumVol_cons]
    have ha := h a (by simp)
    have hl : 0 ≤ sumVol l := sumVol_nonneg l fun u hu => h u (by simp [hu])
    linarith [ha.2]

theorem lastWindow_snoc (us : List (ℚ × ℚ)) (u : ℚ × ℚ) :
    lastWindow (us ++ [u]) = windowAdd (lastWindow us) u.1 u.2 := by
  by_cases hlen : us.length < windowSize
  · have h0 : us.length + 1 - windowSize = 0 := by omega
    have h0' : us.length - windowSize = 0 := by omega
    have hlw : lastWindow us = us := by
      simp [lastWindow, h0']
    rw [hlw] at *
    have hnz : us.length ≠ windowSize := by omega
    simp [lastWindow, windowAdd, h0, hnz]
  · push_neg at hlen
    have hk : us.length + 1 - windowSize = (us.length - windowSize) + 1 := by omega
    have hk' : us.length - windowSize + 1 ≤ us.length := by
      rw [windowSize_val] at hlen ⊢; omega
    have hlw : (List.drop (us.length - windowSize) us).length = windowSize := by
      simp only [List.length_drop]
      omega
    simp only [lastWindow, List.length_append, List.length_singleton, hk, windowAdd]
    rw [List.drop_append_of_le_length hk', if_pos hlw, List.tail_drop]

/-!
### `Update` lemmas and the reachability invariant
-/

theorem update_rejected (v : VWAPCalculator) (p s : ℚ) (h : p ≤ 0 ∨ s ≤ 0) :
    v.update p s = (v, false) := by
  unfold VWAPCalculator.update
  rw [if_pos h]

theorem update_accepted (v : VWAPCalculator) (p s : ℚ) (hp : 0 < p) (hs : 0 < s) :
    v.update p s =
      (⟨(v.buffer.add p s).rb,
        (if (v.buffer.add p s).removed then
          v.totalPV - (v.buffer.add p s).oldPrice * (v.buffer.add p s).oldSize
        else v.totalPV) + p * s,
        (if (v.buffer.add p s).removed then v.totalVolume - (v.buffer.add p s).oldSize
        else v.totalVolume) + s⟩, true) := by
  have hcond : ¬(p ≤ 0 ∨ s ≤ 0) := by
    push_neg
    exact ⟨hp, hs⟩
  unfold VWAPCalculator.update
  rw [if_neg hcond]

/-- An accepted update performs the window insert on the retained pairs and
keeps the running sums consistent with them. -/
theorem update_accept_inv (v : VWAPCalculator) (p s : ℚ) (hInv : v.Inv)
    (hp : 0 < p) (hs : 0 < s) :
    (v.update p s).2 = true ∧ (v.update p s).1.Inv ∧
    (v.update p s).1.buffer.contents = windowAdd v.buffer.contents p s := by
  obtain ⟨hwf, hpv, hvol⟩ := hInv
  have hupd := update_accepted v p s hp hs
  by_cases hc : v.buffer.count = windowSize
  · obtain ⟨hcont, hrem, hop, hos, hwf2, hcnt2⟩ := add_full v.buffer p s hwf hc
    have hconsB : v.buffer.contents = v.buffer.slot 0 :: v.buffer.contents.tail :=
      contents_cons v.buffer (windowSize - 1) (by rw [hc]; rfl)
    have hlenB : v.buffer.contents.length = windowSize := by
      rw [contents_length, hc]
    have hwadd : windowAdd v.buffer.contents p s =
        v.buffer.contents.tail ++ [(p, s)] := by
      unfold windowAdd
      rw [if_pos hlenB]
    refine ⟨by rw [hupd], ⟨?_, ?_, ?_⟩, ?_⟩
    · rw [hupd]
      exact hwf2
    · show (v.update p s).1.totalPV = sumPV (v.update p s).1.buffer.contents
      rw [hupd]
      show (if (v.buffer.add p s).removed then
          v.totalPV - (v.buffer.add p s).oldPrice * (v.buffer.add p s).oldSize
        else v.totalPV) + p * s = sumPV (v.buffer.add p s).rb.contents
      rw [hrem, if_pos rfl, hop, hos, hcont, sumPV_snoc, hpv]
      conv_lhs => rw [hconsB]
      rw [sumPV_cons]
      ring
    · show (v.update p s).1.totalVolume = sumVol (v.update p s).1.buffer.contents
      rw [hupd]
      show (if (v.buffer.add p s).removed then
          v.totalVolume - (v.buffer.add p s).oldSize else v.totalVolume) + s =
        sumVol (v.buffer.add p s).rb.contents
      rw [hrem, if_pos rfl, hos, hcont, sumVol_snoc, hvol]
      conv_lhs => rw [hconsB]
      rw [sumVol_cons]
      ring
    · rw [hupd, hwadd]
      exact hcont
  · have hlt : v.buffer.count < windowSize := by
      rcases hwf with ⟨h1, -, -⟩
      omega
    obtain ⟨hcont, hrem, hwf2⟩ := add_not_full v.buffer p s hwf hlt
    have hlenB : v.buffer.contents.length ≠ windowSize := by
      rw [contents_length]
      omega
    have hwadd : windowAdd v.buffer.contents p s = v.buffer.contents ++ [(p, s)] := by
      unfold windowAdd
      rw [if_neg hlenB]
    refine ⟨by rw [hupd], ⟨?_, ?_, ?_⟩, ?_⟩
    · rw [hupd]
      exact hwf2
    · show (v.update p s).1.totalPV = sumPV (v.update p s).1.buffer.contents
      rw [hupd]
      show (if (v.buffer.add p s).removed then
          v.totalPV - (v.buffer.add p s).oldPrice * (v.buffer.add p s).oldSize
        else v.totalPV) + p * s = sumPV (v.buffer.add p s).rb.contents
      rw [hrem, if_neg (by simp), hcont, sumPV_snoc, hpv]
    · show (v.update p s).1.totalVolume = sumVol (v.update p s).1.buffer.contents
      rw [hupd]
      show (if (v.buffer.add p s).removed then
          v.totalVolume - (v.buffer.add p s).oldSize else v.totalVolume) + s =
        sumVol (v.buffer.add p s).rb.contents
      rw [hrem, if_neg (by simp), hcont, sumVol_snoc, hvol]
    · rw [hupd, hwadd]
      exact hcont

theorem inv_new : NewVWAPCalculator.Inv := by
  refine ⟨⟨?_, ?_, ?_⟩, ?_, ?_⟩ <;> simp [NewVWAPCalculator, RingBuffer.empty,
    RingBuffer.contents, sumPV, sumVol, bufLen_val]

theorem update_inv (v : VWAPCalculator) (p s : ℚ) (hInv : v.Inv) :
    ((v.update p s).1).Inv := by
  by_cases h : p ≤ 0 ∨ s ≤ 0
  · rw [update_rejected v p s h]
    exact hInv
  · push_neg at h
    exact (update_accept_inv v p s hInv (by linarith [h.1]) (by linarith [h.2])).2.1

theorem run_inv (ops : List Op) : (run ops).Inv := by
  suffices h : ∀ (l : List Op) (v : VWAPCalculator), v.Inv → (l.foldl applyOp v).Inv by
    exact h ops NewVWAPCalculator inv_new
  intro l
  induction l with
  | nil => intro v hv; exact hv
  | cons o l ih =>
    intro v hv
    cases o with
    | update p s => exact ih _ (update_inv v p s hv)
    | calculate => exact ih _ hv

theorem runUpdates_snoc (us : List (ℚ × ℚ)) (u : ℚ × ℚ) :
    runUpdates (us ++ [u]) = ((runUpdates us).update u.1 u.2).1 := by
  simp [runUpdates, List.foldl_append]

theorem runAdds_snoc (ps : List (ℚ × ℚ)) (u : ℚ × ℚ) :
    runAdds (ps ++ [u]) = ((runAdds ps).add u.1 u.2).rb := by
  simp [runAdds, List.foldl_append]

theorem empty_wf : RingBuffer.empty.Wf := by
  refine ⟨?_, rfl, ?_⟩ <;> simp [RingBuffer.empty, bufLen_val, windowSize_val]

theorem contents_empty : RingBuffer.empty.contents = [] := by
  simp [RingBuffer.contents, RingBuffer.empty]

/-- The aggregator reached by a valid update sequence satisfies the
consistency invariant and retains exactly the last-window pairs. -/
theorem runUpdates_spec (us : List (ℚ × ℚ)) (hv : validPairs us) :
    (runUpdates us).Inv ∧ (runUpdates us).buffer.contents = lastWindow us := by
  induction us using List.reverseRecOn with
  | nil =>
    refine ⟨inv_new, ?_⟩
    show RingBuffer.empty.contents = lastWindow []
    rw [contents_empty]
    rfl
  | append_singleton us u ih =>
    have hvus : validPairs us := fun x hx => hv x (by simp [hx])
    have hu := hv u (by simp)
    obtain ⟨hInv, hcont⟩ := ih hvus
    obtain ⟨hacc, hInv2, hw⟩ := update_accept_inv (runUpdates us) u.1 u.2 hInv hu.1 hu.2
    rw [runUpdates_snoc]
    refine ⟨hInv2, ?_⟩
    rw [hw, hcont, lastWindow_snoc]

/-- The buffer reached by any insert sequence is well formed and retains
exactly the last-window pairs, in arrival order. -/
theorem runAdds_spec (ps : List (ℚ × ℚ)) :
    (runAdds ps).Wf ∧ (runAdds ps).contents = lastWindow ps := by
  induction ps using List.reverseRecOn with
  | nil =>
    refine ⟨empty_wf, ?_⟩
    show RingBuffer.empty.contents = lastWindow []
    rw [contents_empty]
    rfl
  | append_singleton ps u ih =>
    obtain ⟨hwf, hcont⟩ := ih
    rw [runAdds_snoc, lastWindow_snoc]
    by_cases hc : (runAdds ps).count = windowSize
    · obtain ⟨hc1, -, -, -, hwf2, -⟩ := add_full (runAdds ps) u.1 u.2 hwf hc
      refine ⟨hwf2, ?_⟩
      have hlen : (lastWindow ps).length = windowSize := by
        rw [← hcont, contents_length, hc]
      rw [hc1, hcont]
      unfold windowAdd
      rw [if_pos hlen]
    · have hlt : (runAdds ps).count < windowSize := by
        rcases hwf with ⟨h1, -, -⟩
        omega
      obtain ⟨hc1, -, hwf2⟩ := add_not_full (runAdds ps) u.1 u.2 hwf hlt
      refine ⟨hwf2, ?_⟩
      have hlen : (lastWindow ps).length ≠ windowSize := by
        rw [← hcont, contents_length]
        omega
      rw [hc1, hcont]
      unfold windowAdd
      rw [if_neg hlen]

/-!
### Ingestion-loop lemmas
-/

theorem ingestLoop_success {σ : Type} (rc : ℕ) (st : σ) (f : σ → σ)
    (rest : List (Option (σ → σ))) :
    ingestLoop rc st (some f :: rest) =
      ((ingestLoop 0 (f st) rest).1 + 1, (ingestLoop 0 (f st) rest).2) := rfl

theorem ingestLoop_fail_step {σ : Type} (rc : ℕ) (st : σ)
    (rest : List (Option (σ → σ))) (h : rc + 1 ≤ maxRetries) :
    ingestLoop rc st (none :: rest) =
      ((ingestLoop (rc + 1) st rest).1 + 1, (ingestLoop (rc + 1) st rest).2) := by
  simp only [ingestLoop]
  rw [if_neg (by omega)]

theorem ingestLoop_terminal_step {σ : Type} (st : σ)
    (rest : List (Option (σ → σ))) :
    ingestLoop maxRetries st (none :: rest) = (1, true, st) := by
  simp only [ingestLoop]
  rw [if_pos (by simp [maxRetries])]

theorem ingestLoop_fail_run {σ : Type} (l : List (Option (σ → σ))) (st : σ) :
    ∀ k rc : ℕ, rc + k ≤ maxRetries →
      ingestLoop rc st (List.replicate k none ++ l) =
        ((ingestLoop (rc + k) st l).1 + k, (ingestLoop (rc + k) st l).2) := by
  intro k
  induction k with
  | zero =>
    intro rc h
    simp
  | succ n ih =>
    intro rc h
    rw [List.replicate_succ, List.cons_append,
      ingestLoop_fail_step rc st _ (by omega), ih (rc + 1) (by omega)]
    have he : rc + 1 + n = rc + (n + 1) := by omega
    rw [he]
    rfl

/-!
### Claim theorems
-/

/-- C1: for every sequence of valid (positive price, positive size) updates
applied to a fresh `VWAPCalculator`, the value `Calculate` computes equals
`Σ(price·size) / Σ(size)` over the most recent `min(k, windowSize)` updates
(all of them when `k ≤ windowSize`, else exactly the last `windowSize`,
older contributions exactly removed). -/
theorem claim1_calculate_sliding_vwap (us : List (ℚ × ℚ)) (hv : validPairs us)
    (hne : us ≠ []) :
    (runUpdates us).calcValue = sumPV (lastWindow us) / sumVol (lastWindow us) := by
  obtain ⟨⟨hwf, hpv, hvol⟩, hcont⟩ := runUpdates_spec us hv
  have hsub : ∀ u ∈ lastWindow us, 0 < u.1 ∧ 0 < u.2 := fun u hu =>
    hv u (List.drop_subset _ _ hu)
  have hlen0 : 0 < us.length := List.length_pos.mpr hne
  have hlw_ne : lastWindow us ≠ [] := by
    apply List.length_pos.mp
    simp only [lastWindow, List.length_drop]
    rw [windowSize_val]
    omega
  have hpos : 0 < sumVol (lastWindow us) := sumVol_pos _ hsub hlw_ne
  unfold VWAPCalculator.calcValue VWAPCalculator.calculate
  show (if (runUpdates us).totalVolume = 0 then 0
    else (runUpdates us).totalPV / (runUpdates us).totalVolume) = _
  rw [hpv, hvol, hcont, if_neg (by exact ne_of_gt hpos)]

theorem claim1_witness :
    (runUpdates [(3, 2), (5, 1)]).calcValue =
      sumPV (lastWindow [(3, 2), (5, 1)]) / sumVol (lastWindow [(3, 2), (5, 1)]) :=
  claim1_calculate_sliding_vwap [(3, 2), (5, 1)]
    (by unfold validPairs; decide) (by decide)

/-- C2: after any insert sequence the buffer retains exactly
`min(inserts, windowSize)` pairs, namely the most recent ones in arrival
order, and once `windowSize ≤ inserts` the next insert evicts and returns
exactly the `(inserts - windowSize)`-th (0-based) insert — pure FIFO,
independent of the inserted values. -/
theorem claim2_buffer_fifo (ps : List (ℚ × ℚ)) :
    (runAdds ps).contents.length = min ps.length windowSize ∧
    (runAdds ps).contents = lastWindow ps ∧
    (windowSize ≤ ps.length → ∀ p s : ℚ,
      ((runAdds ps).add p s).removed = true ∧
      ((runAdds ps).add p s).oldPrice = (ps.getD (ps.length - windowSize) (0, 0)).1 ∧
      ((runAdds ps).add p s).oldSize = (ps.getD (ps.length - windowSize) (0, 0)).2) := by
  obtain ⟨hwf, hcont⟩ := runAdds_spec ps
  refine ⟨?_, hcont, ?_⟩
  · rw [hcont]
    simp only [lastWindow, List.length_drop]
    omega
  · intro hlen p s
    have hcnt : (runAdds ps).count = windowSize := by
      have h1 : (runAdds ps).contents.length = (lastWindow ps).length := by rw [hcont]
      rw [contents_length] at h1
      simp only [lastWindow, List.length_drop] at h1
      omega
    obtain ⟨hc1, hrem, hop, hos, -, -⟩ := add_full (runAdds ps) p s hwf hcnt
    have hk : ps.length - windowSize < ps.length := by
      rw [windowSize_val] at hlen ⊢
      omega
    have hdrop : ps.drop (ps.length - windowSize) =
        ps[ps.length - windowSize] :: ps.drop (ps.length - windowSize + 1) :=
      List.drop_eq_getElem_cons hk
    have hcons : (runAdds ps).contents =
        (runAdds ps).slot 0 :: (runAdds ps).contents.tail :=
      contents_cons _ (windowSize - 1) (by rw [hcnt]; rfl)
    have hchain : (runAdds ps).slot 0 :: (runAdds ps).contents.tail =
        ps[ps.length - windowSize] :: ps.drop (ps.length - windowSize + 1) := by
      rw [← hcons, hcont]
      show ps.drop (ps.length - windowSize) = _
      exact hdrop
    have hhead : (runAdds ps).slot 0 = ps[ps.length - windowSize] := by
      injection hchain
    refine ⟨hrem, ?_, ?_⟩
    · rw [hop, hhead, List.getD_eq_getElem ps (0, 0) hk]
    · rw [hos, hhead, List.getD_eq_getElem ps (0, 0) hk]

theorem claim2_witness :
    ((runAdds (List.replicate 200 ((1 : ℚ), (1 : ℚ)))).add 7 3).removed = true :=
  ((claim2_buffer_fifo (List.replicate 200 (1, 1))).2.2
    (by rw [List.length_replicate]; exact le_of_eq windowSize_val) 7 3).1

/-- C3: every aggregator state reachable by `Update`/`Calculate` calls from
the initial state has `totalPV = Σ(price·size)` and
`totalVolume = Σ(size)` over exactly the pairs retained in its buffer, and
`Update` preserves this consistency from any consistent state. -/
theorem claim3_sums_consistent :
    (∀ ops : List Op, (run ops).totalPV = sumPV (run ops).buffer.contents ∧
      (run ops).totalVolume = sumVol (run ops).buffer.contents) ∧
    ∀ (v : VWAPCalculator) (p s : ℚ), v.Inv → ((v.update p s).1).Inv := by
  constructor
  · intro ops
    exact ⟨(run_inv ops).2.1, (run_inv ops).2.2⟩
  · intro v p s h
    exact update_inv v p s h

theorem claim3_witness :
    ((run [Op.update 3 2]).totalPV = sumPV (run [Op.update 3 2]).buffer.contents) ∧
    ((NewVWAPCalculator.update 3 2).1).Inv :=
  ⟨(claim3_sums_consistent.1 [Op.update 3 2]).1,
   claim3_sums_consistent.2 NewVWAPCalculator 3 2 inv_new⟩

/-- C4: `Update` errors on any nonpositive price or size (either alone or
both), leaving the aggregator state — hence `Calculate`'s value — exactly
unchanged, and succeeds on every positive price and size. -/
theorem claim4_update_rejects :
    (∀ (v : VWAPCalculator) (p s : ℚ), p ≤ 0 ∨ s ≤ 0 →
      v.update p s = (v, false) ∧ ((v.update p s).1).calcValue = v.calcValue) ∧
    ∀ (v : VWAPCalculator) (p s : ℚ), 0 < p → 0 < s → (v.update p s).2 = true := by
  constructor
  · intro v p s h
    refine ⟨update_rejected v p s h, ?_⟩
    rw [update_rejected v p s h]
  · intro v p s hp hs
    rw [update_accepted v p s hp hs]

theorem claim4_witness :
    (NewVWAPCalculator.update (-1) 2 = (NewVWAPCalculator, false)) ∧
    (NewVWAPCalculator.update 3 2).2 = true :=
  ⟨(claim4_update_rejects.1 NewVWAPCalculator (-1) 2 (Or.inl (by norm_num))).1,
   claim4_update_rejects.2 NewVWAPCalculator 3 2 (by norm_num) (by norm_num)⟩

/-- C5: `Calculate` returns the defined zero value whenever
`totalVolume = 0` (in particular on a fresh aggregator) and
`totalPV / totalVolume` otherwise; it is total, with no failure path. -/
theorem claim5_calculate_total :
    (∀ v : VWAPCalculator,
      (v.totalVolume = 0 → v.calcValue = 0) ∧
      (v.totalVolume ≠ 0 → v.calcValue = v.totalPV / v.totalVolume)) ∧
    NewVWAPCalculator.calcValue = 0 := by
  constructor
  · intro v
    unfold VWAPCalculator.calcValue VWAPCalculator.calculate
    constructor
    · intro h
      rw [if_pos h]
    · intro h
      rw [if_neg h]
  · rfl

theorem claim5_witness :
    NewVWAPCalculator.calcValue = 0 ∧
    (VWAPCalculator.mk RingBuffer.empty 10 2).calcValue = 10 / 2 :=
  ⟨(claim5_calculate_total.1 NewVWAPCalculator).1 rfl,
   (claim5_calculate_total.1 ⟨RingBuffer.empty, 10, 2⟩).2 (by norm_num)⟩

/-- C6: with `maxRetries = 5`, a run of `maxRetries + 1 = 6` consecutive
connection failures (the initial attempt plus 5 failed retries, no
intervening success) makes the ingestion loop terminal: exactly those 6
connect attempts are issued, no retry beyond them is ever attempted (any
further outcomes are never consumed), and the aggregator state `st` is
returned untouched, still queryable. -/
theorem claim6_retry_terminal {σ : Type} (st : σ)
    (rest : List (Option (σ → σ))) :
    ingestLoop 0 st (List.replicate (maxRetries + 1) none ++ rest) =
      (maxRetries + 1, true, st) := by
  have hsplit : List.replicate (maxRetries + 1) (none : Option (σ → σ)) ++ rest =
      List.replicate maxRetries none ++ (none :: rest) := by
    rw [List.replicate_succ', List.append_assoc, List.singleton_append]
  rw [hsplit, ingestLoop_fail_run (none :: rest) st maxRetries 0 (by omega),
    Nat.zero_add, ingestLoop_terminal_step]
  show (1 + maxRetries, true, st) = (maxRetries + 1, true, st)
  rw [Nat.add_comm 1 maxRetries]

/-- C7: a successful connect resets the retry counter to zero, so any
outcome trace made of failure runs each bounded by `maxRetries`, separated
by successes, never terminates ingestion. -/
theorem claim7_retry_reset {σ : Type} :
    (∀ (rc : ℕ) (st : σ) (f : σ → σ) (rest : List (Option (σ → σ))),
      ingestLoop rc st (some f :: rest) =
        ((ingestLoop 0 (f st) rest).1 + 1, (ingestLoop 0 (f st) rest).2)) ∧
    ∀ (blocks : List (ℕ × (σ → σ))) (st : σ),
      (∀ b ∈ blocks, b.1 ≤ maxRetries) →
      (ingestLoop 0 st (blockTrace blocks)).2.1 = false := by
  constructor
  · intro rc st f rest
    exact ingestLoop_success rc st f rest
  · intro blocks
    induction blocks with
    | nil =>
      intro st h
      rfl
    | cons b rest ih =>
      intro st h
      obtain ⟨k, f⟩ := b
      have hk : k ≤ maxRetries := by simpa using h (k, f) (by simp)
      show (ingestLoop 0 st
        (List.replicate k none ++ some f :: blockTrace rest)).2.1 = false
      rw [ingestLoop_fail_run (some f :: blockTrace rest) st k 0 (by omega)]
      show (ingestLoop (0 + k) st (some f :: blockTrace rest)).2.1 = false
      rw [ingestLoop_success]
      show (ingestLoop 0 (f st) (blockTrace rest)).2.1 = false
      exact ih (f st) fun x hx => h x (by simp [hx])

theorem claim7_witness :
    (ingestLoop 0 (0 : ℕ) (blockTrace [(2, id)])).2.1 = false :=
  claim7_retry_reset.2 [(2, id)] 0 (by decide)

/-- C8 as stated is false on the code: a well-formed frame whose `price`
and `size` are JSON numbers does not decode into a `Trade` (their Go
struct fields are `string`-typed, so `json.Unmarshal` fails on a JSON
number), hence the trade is never applied — here at the concrete frame
`{type: "match", product_id: "BTC-USD", price: 5, size: 2}`. -/
theorem claim8_counterexample :
    decodeTrade ⟨"match", "BTC-USD", JsonVal.jnum 5, JsonVal.jnum 2⟩ = none ∧
    (processMessage ⟨"match", "BTC-USD", JsonVal.jnum 5, JsonVal.jnum 2⟩
      mainCalculators).2 = MsgResult.decodeError :=
  ⟨rfl, rfl⟩

/-- C8 amended: a well-formed frame whose `price` and `size` are JSON
STRINGS always decodes into a trade record, and when its type is
`"match"`, its product id is configured, and the strings parse to positive
values, the trade is accepted and applied via `Update`. -/
theorem claim8_amended (fr : Frame) (reg : Registry) (po so : Option ℚ)
    (hp : fr.price = JsonVal.jstr po) (hs : fr.size = JsonVal.jstr so) :
    decodeTrade fr = some ⟨fr.type, fr.product_id, po, so⟩ ∧
    ∀ (p s : ℚ) (c : VWAPCalculator),
      po = some p → so = some s → fr.type = "match" →
      reg.find fr.product_id = some c → 0 < p → 0 < s →
      (processMessage fr reg).2 = MsgResult.applied ((c.update p s).1).calcValue ∧
      (processMessage fr reg).1 = reg.store fr.product_id ((c.update p s).1) := by
  have hdec : decodeTrade fr = some ⟨fr.type, fr.product_id, po, so⟩ := by
    unfold decodeTrade
    rw [hp, hs]
    rfl
  refine ⟨hdec, ?_⟩
  intro p s c hpo hso ht hfind hpp hsp
  have hustr : c.updateStr po so = ((c.update p s).1, true) := by
    rw [hpo, hso]
    show c.update p s = _
    rw [update_accepted c p s hpp hsp]
  have hmatch : ¬(fr.type ≠ "match") := fun hcon => hcon ht
  constructor
  · simp only [processMessage, hdec, if_neg hmatch, hfind, hustr]
  · simp only [processMessage, hdec, if_neg hmatch, hfind, hustr]

theorem claim8_witness :
    (processMessage
      ⟨"match", "BTC-USD", JsonVal.jstr (some 3), JsonVal.jstr (some 2)⟩
      mainCalculators).2 =
      MsgResult.applied ((NewVWAPCalculator.update 3 2).1).calcValue :=
  ((claim8_amended
      ⟨"match", "BTC-USD", JsonVal.jstr (some 3), JsonVal.jstr (some 2)⟩
      mainCalculators (some 3) (some 2) rfl rfl).2 3 2 NewVWAPCalculator
      rfl rfl rfl rfl (by norm_num) (by norm_num)).1

/-- C9: on every well-formed buffer state (count ≤ windowSize, even
in-range start) all array indices `Add` can compute — `start`, `start+1`,
and `pos`, `pos+1` for the position formula of either branch — are within
the backing array of length `2·windowSize`, and `Add` preserves the shape
invariant (which the zero-value buffer satisfies), so `Add` never indexes
out of bounds on reachable states. -/
theorem claim9_add_bounds (rb : RingBuffer) (p s : ℚ) (hwf : rb.Wf) :
    rb.start < bufLen ∧ rb.start + 1 < bufLen ∧
    ((rb.start + 2) % bufLen + (rb.count - 1) * 2) % bufLen < bufLen ∧
    ((rb.start + 2) % bufLen + (rb.count - 1) * 2) % bufLen + 1 < bufLen ∧
    (rb.start + (rb.count + 1 - 1) * 2) % bufLen < bufLen ∧
    (rb.start + (rb.count + 1 - 1) * 2) % bufLen + 1 < bufLen ∧
    RingBuffer.empty.Wf ∧ (rb.add p s).rb.Wf := by
  obtain ⟨hcount, heven, hstart⟩ := hwf
  rw [bufLen_val] at hstart
  refine ⟨by rw [bufLen_val]; omega, by rw [bufLen_val]; omega,
    by rw [bufLen_val]; omega, by rw [bufLen_val]; omega,
    by rw [bufLen_val]; omega, by rw [bufLen_val]; omega, empty_wf, ?_⟩
  have hwf : rb.Wf := ⟨hcount, heven, by rw [bufLen_val]; omega⟩
  by_cases hc : rb.count = windowSize
  · exact (add_full rb p s hwf hc).2.2.2.2.1
  · exact (add_not_full rb p s hwf (by omega)).2.2

theorem claim9_witness :
    RingBuffer.empty.start + 1 < bufLen ∧ (RingBuffer.empty.add 3 2).rb.Wf := by
  have h := claim9_add_bounds RingBuffer.empty 3 2 (by decide)
  exact ⟨h.2.1, h.2.2.2.2.2.2.2⟩

/-- C10: `Calculate` mutates no field of the calculator — it returns its
receiver unchanged — so any number of consecutive `Calculate` calls with
no intervening `Update` all return the same value. -/
theorem claim10_calculate_pure (v : VWAPCalculator) (n : ℕ) :
    (v.calculate).1 = v ∧
    ((fun w : VWAPCalculator => (w.calculate).1)^[n] v).calcValue = v.calcValue := by
  refine ⟨rfl, ?_⟩
  rw [Function.iterate_fixed rfl n]

end VWAP
